import Mathlib

/-!
# Verification of the MS2Int webserver core

Shallow embedding of the job orchestration engine and spectral data model
of the MS2Int webserver backend, together with theorems settling the
specification claims about it.

Conventions of the embedding:
* Python floats are modelled as exact rationals (`ℚ`); decimal literals in
  the source appear verbatim as Lean decimal literals, which parse to the
  same rational values.
* Python strings are modelled as `List Char` (via `String` where
  convenient); `str.strip`, maximal digit runs and the regular-expression
  searches of `mgf_parser.py` are implemented character by character.
* Mutable records protected by a lock are modelled as explicit state
  passing; a thread's sequence of lock-protected mutations is a list of
  events, and a concurrent reader observes the state after some prefix of
  that list.
-/

namespace MS2Int

/-! ## ion_labels.py — constants -/

/-- `AA_MASS` from `ion_labels.py`: standard amino acid monoisotopic
residue masses (Da), with the dictionary modelled as a function returning
`none` for unknown residues (`dict.get`). -/
def AA_MASS (c : Char) : Option ℚ :=
  match c with
  | 'G' => some 57.02146  | 'A' => some 71.03711  | 'V' => some 99.06841
  | 'L' => some 113.08406 | 'I' => some 113.08406 | 'P' => some 97.05276
  | 'F' => some 147.06841 | 'W' => some 186.07931 | 'M' => some 131.04049
  | 'S' => some 87.03203  | 'T' => some 101.04768 | 'C' => some 103.00919
  | 'Y' => some 163.06333 | 'H' => some 137.05891 | 'D' => some 115.02694
  | 'E' => some 129.04259 | 'N' => some 114.04293 | 'Q' => some 128.05858
  | 'K' => some 128.09496 | 'R' => some 156.10111
  | _   => none

/-- `MOD_MASS` from `ion_labels.py`: modification delta masses (Da). -/
def MOD_MASS (s : String) : Option ℚ :=
  if s = "Oxidation" then some 15.99491
  else if s = "Carbamidomethyl" then some 57.02146
  else if s = "Phospho" then some 79.96633
  else if s = "Acetyl" then some 42.01057
  else if s = "Dimethyl" then some 28.03130
  else if s = "Trimethyl" then some 42.04695
  else if s = "Formyl" then some 27.99492
  else if s = "Methyl" then some 14.01565
  else if s = "GG" then some 114.04293
  else if s = "Glu->pyro-Glu" then some (-18.01056)
  else if s = "Gln->pyro-Glu" then some (-17.02655)
  else if s = "Propionyl" then some 56.02621
  else if s = "Succinyl" then some 100.01604
  else if s = "Biotin" then some 226.07760
  else if s = "HexNAc" then some 203.07937
  else if s = "Nitro" then some 44.98508
  else none

def PROTON_MASS : ℚ := 1.007276
def WATER_MASS : ℚ := 18.01056

def ION_ROWS : Nat := 31
def ION_COLS : Nat := 29

/-! ## ion_labels.py — annotation matrix -/

/-- The `(31, 29)` annotation matrix of `_build_annotation_matrix` in
`ion_labels.py`, as a function of (row, col).  Rows 0–3 are the b/b²⁺/y/y²⁺
series, rows 4–30 the internal `m{start}:{end}` ranges with
`m_start = col + 2`, `m_end = m_start + (row - 2)` labelled only when
`m_end ≤ ION_COLS`; the immonium overrides land on column 28 of rows 0–3.
Out-of-range indices return the empty string (the fill value). -/
def ANNOTATION_MATRIX (row col : Nat) : String :=
  if row = 0 ∧ col = 28 then "IH"
  else if row = 1 ∧ col = 28 then "IR"
  else if row = 2 ∧ col = 28 then "IF"
  else if row = 3 ∧ col = 28 then "IY"
  else if row = 0 ∧ col < ION_COLS then "b" ++ toString (col + 1)
  else if row = 1 ∧ col < ION_COLS then "b" ++ toString (col + 1) ++ "^2"
  else if row = 2 ∧ col < ION_COLS then "y" ++ toString (col + 1)
  else if row = 3 ∧ col < ION_COLS then "y" ++ toString (col + 1) ++ "^2"
  else if 4 ≤ row ∧ row < ION_ROWS ∧ col < ION_COLS then
    let m_start := col + 2
    let m_end := m_start + (row - 2)
    if m_end ≤ ION_COLS then "m" ++ toString m_start ++ ":" ++ toString m_end
    else ""
  else ""

/-! ## ion_labels.py — tokenizer -/

/-- First index at which the two-character pattern `]-` occurs
(`seq.find("]-", 0)` in `tokenize_peptide`). -/
def findCloseDash : List Char → Option Nat
  | [] => none
  | [_] => none
  | a :: b :: rest =>
    if a = ']' ∧ b = '-' then some 0
    else (findCloseDash (b :: rest)).map (· + 1)

/-- Main loop of `tokenize_peptide` (`ion_labels.py`): scans the characters
after the optional N-terminal modification token.  Tokens are returned as
character lists.  The `fuel` argument only bounds the iteration count so
the recursion is structural; every iteration consumes at least one
character, so starting the fuel above the input length makes the fuel
branch unreachable. -/
def tokenizeGo : Nat → List Char → Except String (List (List Char))
  | 0, _ => .error "fuel exhausted"
  | _, [] => .ok []
  | fuel + 1, '-' :: '[' :: ']' :: rest => do
    let ts ← tokenizeGo fuel rest
    .ok (['-', '[', ']'] :: ts)
  | fuel + 1, c :: '[' :: rest2 =>
    if 'A' ≤ c ∧ c ≤ 'Z' then
      match rest2.findIdx? (· = ']') with
      | none => .error "Residue modification missing the closing bracket"
      | some k => do
        let ts ← tokenizeGo fuel (rest2.drop (k + 1))
        .ok ((c :: '[' :: rest2.take (k + 1)) :: ts)
    else .error "Invalid character"
  | fuel + 1, c :: rest =>
    if 'A' ≤ c ∧ c ≤ 'Z' then do
      let ts ← tokenizeGo fuel rest
      .ok ([c] :: ts)
    else .error "Invalid character"

/-- `tokenize_peptide` from `ion_labels.py`: an optional bracketed
N-terminal modification token `[...]-`, then residues with optional
bracketed modifications and the C-terminal token `-[]`. -/
def tokenize_peptide (seq : List Char) : Except String (List (List Char)) :=
  match seq with
  | '[' :: _ =>
    match findCloseDash seq with
    | none => .error "N-terminus modification missing the closing bracket"
    | some j => do
      let ts ← tokenizeGo (seq.length + 1) (seq.drop (j + 2))
      .ok (seq.take (j + 2) :: ts)
  | _ => tokenizeGo (seq.length + 1) seq

/-- `_residue_masses` from `ion_labels.py`: token list to residue masses.
N/C-terminal empty-modification tokens are skipped; a bracketed N-terminal
modification contributes its delta mass; a residue contributes its
`AA_MASS` (0 for unknown) plus the delta mass of its bracketed
modification when present. -/
def residue_masses (tokens : List (List Char)) : List ℚ :=
  tokens.foldr (fun tok acc =>
    if tok = ['[', ']', '-'] ∨ tok = ['-', '[', ']'] then acc
    else if tok.take 1 = ['['] ∧ tok.drop (tok.length - 2) = [']', '-'] then
      ((MOD_MASS ((tok.drop 1).take (tok.length - 3)).asString).getD 0) :: acc
    else
      let base := (AA_MASS (tok.headD ' ')).getD 0
      let base := if '[' ∈ tok then
          base + (MOD_MASS ((tok.drop 2).take (tok.length - 3)).asString).getD 0
        else base
      base :: acc) []

/-! ## ion_labels.py — theoretical m/z -/

/-- `compute_theoretical_mz` from `ion_labels.py`: label → m/z entries for
b/y ions at charges 1+ and 2+, for cleavage positions `i = 1 .. n-1`.
The `charge` argument is accepted and unused, as in the source. -/
def compute_theoretical_mz (sequence : List Char) (charge : ℤ) :
    Except String (List (String × ℚ)) := do
  let _ := charge
  let tokens ← tokenize_peptide sequence
  let rm := residue_masses tokens
  let n := rm.length
  if n = 0 then return []
  let ntermOffset : ℚ :=
    match tokens with
    | tok :: _ =>
      if tok.take 1 = ['['] ∧ tok.drop (tok.length - 2) = [']', '-'] then
        (MOD_MASS ((tok.drop 1).take (tok.length - 3)).asString).getD 0
      else 0
    | [] => 0
  let totalMass := rm.sum
  return (List.range (n - 1)).flatMap (fun k =>
    let i := k + 1
    let bMass := (rm.take i).sum + ntermOffset
    let yMass := totalMass - (rm.take i).sum + WATER_MASS
    [("b" ++ toString i, (bMass + PROTON_MASS) / 1),
     ("b" ++ toString i ++ "^2", (bMass + 2 * PROTON_MASS) / 2),
     ("y" ++ toString i, (yMass + PROTON_MASS) / 1),
     ("y" ++ toString i ++ "^2", (yMass + 2 * PROTON_MASS) / 2)])

/-- `dict.get(label, 0.0)` on the m/z map. -/
def mzGet (m : List (String × ℚ)) (label : String) : ℚ :=
  ((m.find? (fun p => p.1 = label)).map (fun p => p.2)).getD 0

theorem mzGet_nil (label : String) : mzGet [] label = 0 := rfl

theorem mzGet_cons (s : String) (q : ℚ) (l : List (String × ℚ)) (label : String) :
    mzGet ((s, q) :: l) label = if s = label then q else mzGet l label := by
  by_cases h : s = label
  · simp [mzGet, List.find?_cons_of_pos, h]
  · rw [mzGet, List.find?_cons_of_neg _ (by simp [h]), if_neg h]; rfl

/-! ## ion_labels.py — matrix → ion list -/

/-- Round-half-even on rationals; models Python's `round` tie behaviour. -/
def roundHalfEven (q : ℚ) : ℤ :=
  let f := ⌊q⌋
  let r := q - f
  if r < 1 / 2 then f
  else if 1 / 2 < r then f + 1
  else if f % 2 = 0 then f else f + 1

/-- `round(q, ndigits)` on rationals. -/
def pyRound (ndigits : Nat) (q : ℚ) : ℚ :=
  (roundHalfEven (q * 10 ^ ndigits) : ℚ) / 10 ^ ndigits

/-- The ion record built by `intensity_matrix_to_ion_list`. -/
structure IonRec where
  label : String
  type : String
  mz : ℚ
  intensity : ℚ
deriving DecidableEq, Repr

/-- Python `str.startswith`, computed over the character lists. -/
def pyStartsWith (s p : String) : Bool :=
  p.data.isPrefixOf s.data

/-- The type-category chain of `intensity_matrix_to_ion_list`. -/
def ionTypeOf (label : String) : String :=
  if pyStartsWith label "b" then "b"
  else if pyStartsWith label "y" then "y"
  else if pyStartsWith label "m" then "internal"
  else if pyStartsWith label "I" then "immonium"
  else "other"

/-- One loop body of `intensity_matrix_to_ion_list`: the record for cell
`(pos, ion_type)` of the intensity matrix, or `none` when the cell is
skipped (`intensity <= min_intensity`, or empty annotation label). -/
def cellRecord (mzMap : List (String × ℚ)) (minIntensity : ℚ)
    (M : Nat → Nat → ℚ) (pos ionType : Nat) : Option IonRec :=
  let intensity := M pos ionType
  if intensity ≤ minIntensity then none
  else
    let label := ANNOTATION_MATRIX ionType pos
    if label = "" then none
    else some { label := label, type := ionTypeOf label,
                mz := pyRound 4 (mzGet mzMap label),
                intensity := pyRound 6 intensity }

/-- The traversal of `intensity_matrix_to_ion_list` before the final sort:
outer loop over `pos`, inner loop over `ion_type`. -/
def ionTraversal (mzMap : List (String × ℚ)) (minIntensity : ℚ)
    (shape0 shape1 : Nat) (M : Nat → Nat → ℚ) : List IonRec :=
  (List.range shape0).flatMap (fun pos =>
    (List.range shape1).filterMap (fun ionType =>
      cellRecord mzMap minIntensity M pos ionType))

/-- The comparison used for the final sort: descending intensity.  A
stable insertion sort with this relation models Python's stable
`list.sort(key=intensity, reverse=True)`. -/
def ionGE (a b : IonRec) : Prop := b.intensity ≤ a.intensity

instance : DecidableRel ionGE := fun a b =>
  inferInstanceAs (Decidable (b.intensity ≤ a.intensity))

instance : IsTotal IonRec ionGE :=
  ⟨fun a b => le_total b.intensity a.intensity⟩

instance : IsTrans IonRec ionGE :=
  ⟨fun _ _ _ h1 h2 => le_trans h2 h1⟩

/-- `intensity_matrix_to_ion_list` from `ion_labels.py`, for a matrix of
shape `(shape0, shape1)` given as a function of (pos, ion_type). -/
def intensity_matrix_to_ion_list (shape0 shape1 : Nat) (M : Nat → Nat → ℚ)
    (sequence : List Char) (charge : ℤ) (minIntensity : ℚ) :
    Except String (List IonRec) := do
  let mzMap ← compute_theoretical_mz sequence charge
  return List.insertionSort ionGE (ionTraversal mzMap minIntensity shape0 shape1 M)

/-! ## Claims C3 and C4 -/

/-- Claim C3, counterexample: the claim asserts `annotation[4,0] = "m2:3"`,
but the matrix built by `_build_annotation_matrix` has `m_end = m_start +
(row - 2) = 2 + 2 = 4` at row 4, column 0, so the cell reads `"m2:4"`. -/
theorem C3_counterexample : ¬ (ANNOTATION_MATRIX 4 0 = "m2:3") := by decide

/-- Claim C3, amended: the ion-annotation matrix satisfies
`annotation[0,0] = "b1"`, `annotation[1,28] = "IR"` and
`annotation[4,0] = "m2:4"`, and the internal-fragment cells of rows 4..30
are labelled `m{start}:{end}` with `start = c+2` and
`end = start + (r-2) = c + r` when `end ≤ 29`, and empty otherwise. -/
theorem C3_annotation_matrix :
    ANNOTATION_MATRIX 0 0 = "b1" ∧
    ANNOTATION_MATRIX 1 28 = "IR" ∧
    ANNOTATION_MATRIX 4 0 = "m2:4" ∧
    ∀ r c, 4 ≤ r → r ≤ 30 → c ≤ 28 →
      ANNOTATION_MATRIX r c =
        if c + r ≤ 29 then "m" ++ toString (c + 2) ++ ":" ++ toString (c + r)
        else "" := by
  refine ⟨by decide, by decide, by decide, ?_⟩
  intro r c h4 h30 h28
  have e : c + 2 + (r - 2) = c + r := by omega
  simp only [ANNOTATION_MATRIX, ION_ROWS, ION_COLS]
  rw [if_neg (show ¬ (r = 0 ∧ c = 28) by omega),
      if_neg (show ¬ (r = 1 ∧ c = 28) by omega),
      if_neg (show ¬ (r = 2 ∧ c = 28) by omega),
      if_neg (show ¬ (r = 3 ∧ c = 28) by omega),
      if_neg (show ¬ (r = 0 ∧ c < 29) by omega),
      if_neg (show ¬ (r = 1 ∧ c < 29) by omega),
      if_neg (show ¬ (r = 2 ∧ c < 29) by omega),
      if_neg (show ¬ (r = 3 ∧ c < 29) by omega),
      if_pos (show 4 ≤ r ∧ r < 31 ∧ c < 29 by omega)]
  simp only [e]

/-- Witness for C3: the amended general formula instantiated at row 10,
column 3 (`start = 5`, `end = 13`). -/
theorem C3_annotation_matrix_witness : ANNOTATION_MATRIX 10 3 = "m5:13" := by
  have h := C3_annotation_matrix.2.2.2 10 3 (by norm_num) (by norm_num) (by norm_num)
  simpa using h

/-- Claim C4, counterexample: the claim asserts the theoretical m/z map for
`"ACDK"` at charge 1 assigns `y1 = mass(K) + water + proton`; the code
computes `y1` from the cleavage position counted from the N-terminus
(`y_mass = total - prefix(1) + water`), which is
`mass(C) + mass(D) + mass(K) + water + proton` instead. -/
theorem C4_counterexample :
    ¬ ((compute_theoretical_mz ("ACDK".toList) 1).toOption.map
        (fun m => mzGet m "y1")
      = some ((128.09496 : ℚ) + 18.01056 + 1.007276)) := by
  have htok : tokenize_peptide ("ACDK".toList) = .ok [['A'],['C'],['D'],['K']] := rfl
  have hrm : residue_masses [['A'],['C'],['D'],['K']]
      = [(71.03711 : ℚ), 103.00919, 115.02694, 128.09496] := rfl
  simp only [compute_theoretical_mz, htok, hrm, Except.bind, bind]
  norm_num [mzGet_cons, mzGet_nil, List.range_succ, WATER_MASS, PROTON_MASS, pure,
    Except.pure, Except.toOption, Option.map, Option.getD,
    show "b" ++ toString 1 = "b1" from rfl, show "b" ++ toString 2 = "b2" from rfl,
    show "b" ++ toString 3 = "b3" from rfl, show "y" ++ toString 1 = "y1" from rfl,
    show "y" ++ toString 2 = "y2" from rfl, show "y" ++ toString 3 = "y3" from rfl]
  simp
  all_goals norm_num

/-- Claim C4, amended: for the unmodified peptide `"ACDK"` at charge 1,
the theoretical m/z map assigns `b1 = mass(A) + proton`, and — per the
positional formula `y_mass(i) = total residue mass − prefix-sum(i) +
water` — `y1 = mass(C) + mass(D) + mass(K) + water + proton`; the value
`mass(K) + water + proton` is carried by the label `y3`. -/
theorem C4_theoretical_mz_ACDK :
    (compute_theoretical_mz ("ACDK".toList) 1).toOption.map
        (fun m => (mzGet m "b1", mzGet m "y1", mzGet m "y3"))
      = some ((AA_MASS 'A').getD 0 + PROTON_MASS,
              (AA_MASS 'C').getD 0 + (AA_MASS 'D').getD 0 + (AA_MASS 'K').getD 0
                + WATER_MASS + PROTON_MASS,
              (AA_MASS 'K').getD 0 + WATER_MASS + PROTON_MASS) := by
  have htok : tokenize_peptide ("ACDK".toList) = .ok [['A'],['C'],['D'],['K']] := rfl
  have hrm : residue_masses [['A'],['C'],['D'],['K']]
      = [(71.03711 : ℚ), 103.00919, 115.02694, 128.09496] := rfl
  simp only [compute_theoretical_mz, htok, hrm, Except.bind, bind]
  norm_num [mzGet_cons, mzGet_nil, List.range_succ, WATER_MASS, PROTON_MASS, pure,
    Except.pure, Except.toOption, Option.map, Option.getD, AA_MASS,
    show "b" ++ toString 1 = "b1" from rfl, show "b" ++ toString 2 = "b2" from rfl,
    show "b" ++ toString 3 = "b3" from rfl, show "y" ++ toString 1 = "y1" from rfl,
    show "y" ++ toString 2 = "y2" from rfl, show "y" ++ toString 3 = "y3" from rfl]
  simp

/-! ## mgf_parser.py — scan-number extraction

The four regular expressions of `_SCAN_PATTERNS` are implemented
character by character over `List Char`.  `re.search` semantics: start
positions are tried left to right and the leftmost match wins; each
pattern below is deterministic under backtracking because every greedy
`\d+` / `[:\s]+` run is followed by a character class disjoint from it.
`\d` and `\s` are modelled as ASCII digits and ASCII whitespace. -/

/-- ASCII model of the regex class `\s`. -/
def isPySpace (c : Char) : Bool :=
  c = ' ' ∨ c = '\t' ∨ c = '\n' ∨ c = '\x0b' ∨ c = '\x0c' ∨ c = '\r'

/-- Numeric value of a digit run (`int(m.group(1))`). -/
def digitsVal (ds : List Char) : Nat :=
  ds.foldl (fun a c => a * 10 + (c.toNat - '0'.toNat)) 0

/-- Pattern 1, `scan=(\d+)`, matched at the head of the suffix. -/
def p1At : List Char → Option Nat
  | 's' :: 'c' :: 'a' :: 'n' :: '=' :: rest =>
    let ds := rest.takeWhile Char.isDigit
    if ds = [] then none else some (digitsVal ds)
  | _ => none

/-- Pattern 2, `\.(\d+)\.\d+\.\d+\s`, matched at the head of the suffix. -/
def p2At : List Char → Option Nat
  | '.' :: rest =>
    let d1 := rest.takeWhile Char.isDigit
    if d1 = [] then none
    else
      match rest.drop d1.length with
      | '.' :: rest2 =>
        let d2 := rest2.takeWhile Char.isDigit
        if d2 = [] then none
        else
          match rest2.drop d2.length with
          | '.' :: rest3 =>
            let d3 := rest3.takeWhile Char.isDigit
            if d3 = [] then none
            else
              match rest3.drop d3.length with
              | c :: _ => if isPySpace c then some (digitsVal d1) else none
              | [] => none
          | _ => none
      | _ => none
  | _ => none

/-- Pattern 3, `scans?[:\s]+(\d+)` with `re.I`, matched at the head of the
suffix. -/
def p3At : List Char → Option Nat
  | c1 :: c2 :: c3 :: c4 :: rest =>
    if c1.toLower = 's' ∧ c2.toLower = 'c' ∧ c3.toLower = 'a' ∧ c4.toLower = 'n' then
      let rest1 :=
        match rest with
        | c :: r => if c.toLower = 's' then r else rest
        | [] => rest
      let sep := rest1.takeWhile (fun c => c = ':' || isPySpace c)
      if sep = [] then none
      else
        let ds := (rest1.drop sep.length).takeWhile Char.isDigit
        if ds = [] then none else some (digitsVal ds)
    else none
  | _ => none

/-- Pattern 4, `index=(\d+)`, matched at the head of the suffix. -/
def p4At : List Char → Option Nat
  | 'i' :: 'n' :: 'd' :: 'e' :: 'x' :: '=' :: rest =>
    let ds := rest.takeWhile Char.isDigit
    if ds = [] then none else some (digitsVal ds)
  | _ => none

/-- `re.search` over a single pattern: try each start position from the
left, return the first match. -/
def searchFirst (f : List Char → Option Nat) : List Char → Option Nat
  | [] => f []
  | c :: rest =>
    match f (c :: rest) with
    | some v => some v
    | none => searchFirst f rest

/-- The ordered `_SCAN_PATTERNS` list of `mgf_parser.py`. -/
def SCAN_PATTERNS : List (List Char → Option Nat) :=
  [searchFirst p1At, searchFirst p2At, searchFirst p3At, searchFirst p4At]

/-- The `for pattern in _SCAN_PATTERNS: return first match` loop. -/
def firstMatch : List (List Char → Option Nat) → List Char → Option Nat
  | [], _ => none
  | p :: ps, t =>
    match p t with
    | some v => some v
    | none => firstMatch ps t

/-- `_extract_scan` from `mgf_parser.py`. -/
def extract_scan (title : List Char) : Option Nat :=
  firstMatch SCAN_PATTERNS title

/-! ## mgf_parser.py — parsing -/

/-- `_parse_charge`: strip whitespace, strip trailing `+`/`-`, parse an
integer, default 0. -/
def pyStripWs (s : List Char) : List Char :=
  ((s.dropWhile (fun c => isPySpace c)).reverse.dropWhile (fun c => isPySpace c)).reverse

def rstripPlusMinus (s : List Char) : List Char :=
  (s.reverse.dropWhile (fun c => c = '+' || c = '-')).reverse

/-- Python `int(s)` on an already-stripped string: optional sign then a
nonempty digit run, `none` otherwise. -/
def parseIntOpt (s : List Char) : Option ℤ :=
  match s with
  | '+' :: ds => if ds ≠ [] ∧ ds.all Char.isDigit then some (digitsVal ds) else none
  | '-' :: ds => if ds ≠ [] ∧ ds.all Char.isDigit then some (-(digitsVal ds : ℤ)) else none
  | ds => if ds ≠ [] ∧ ds.all Char.isDigit then some (digitsVal ds) else none

def parse_charge (s : List Char) : ℤ :=
  (parseIntOpt (rstripPlusMinus (pyStripWs s))).getD 0

/-- One already-lexed line of an MGF stream.  Numeric-literal parsing
(Python `float`) is abstracted: a line recognised as a `PEPMASS` header or
as a two-token numeric peak line carries its parsed rational values, and
`malformed` stands for a peak-shaped line whose `float` conversion raised
(silently skipped by the source).  `header` stands for any other
`key=value` line. -/
inductive MgfLine
  | beginIons
  | endIons
  | title (s : List Char)
  | pepmass (q : ℚ)
  | charge (s : List Char)
  | rtinseconds
  | header
  | peak (mz intensity : ℚ)
  | malformed

/-- A parsed spectrum record of `parse_mgf`. -/
structure Spectrum where
  title : List Char
  scan : Option Nat
  pepmass : ℚ
  charge : ℤ
  mzArray : List ℚ
  intArray : List ℚ
deriving DecidableEq, Repr

/-- `np.max` over a nonempty list (0 for the empty list, unused). -/
def listMax : List ℚ → ℚ
  | [] => 0
  | x :: xs => xs.foldl max x

/-- The `END IONS` normalization of `_parse_mgf_handle`: divide by the
block's maximum intensity when the block has peaks and the maximum is
positive. -/
def closeBlock (ints : List ℚ) : List ℚ :=
  let maxInt := if ints.length > 0 then listMax ints else 1
  if maxInt > 0 then ints.map (· / maxInt) else ints

/-- Parser state of `_parse_mgf_handle`. -/
structure ParseState where
  inIons : Bool
  title : List Char
  pepmass : ℚ
  charge : ℤ
  mzs : List ℚ
  ints : List ℚ
  spectra : List Spectrum

def initParseState : ParseState :=
  { inIons := false, title := [], pepmass := 0, charge := 0,
    mzs := [], ints := [], spectra := [] }

/-- One line of the `_parse_mgf_handle` loop.  `BEGIN IONS` and `END IONS`
are handled before the `in_ions` gate, exactly as in the source. -/
def mgfStep (st : ParseState) (line : MgfLine) : ParseState :=
  match line with
  | .beginIons =>
    { st with inIons := true, title := [], pepmass := 0, charge := 0,
              mzs := [], ints := [] }
  | .endIons =>
    let spec : Spectrum :=
      { title := st.title, scan := extract_scan st.title,
        pepmass := st.pepmass, charge := st.charge,
        mzArray := st.mzs, intArray := closeBlock st.ints }
    { st with inIons := false, spectra := st.spectra ++ [spec] }
  | other =>
    if st.inIons then
      match other with
      | .title s => { st with title := s }
      | .pepmass q => { st with pepmass := q }
      | .charge s => { st with charge := parse_charge s }
      | .peak mz i => { st with mzs := st.mzs ++ [mz], ints := st.ints ++ [i] }
      | _ => st
    else st

/-- `_parse_mgf_handle` from `mgf_parser.py` over a list of lexed lines. -/
def parse_mgf_handle (lines : List MgfLine) : List Spectrum :=
  (lines.foldl mgfStep initParseState).spectra

/-- Summary accumulator of `get_mgf_summary`. -/
structure MgfSummary where
  numSpectra : Nat
  scans : List Nat
deriving DecidableEq, Repr

/-- One line of the `get_mgf_summary` loop: count `BEGIN IONS`, and on a
`TITLE=` line collect the scan number `_extract_scan` resolves — the same
`_extract_scan` the full parser uses. -/
def summaryStep (acc : MgfSummary) (line : MgfLine) : MgfSummary :=
  match line with
  | .beginIons => { acc with numSpectra := acc.numSpectra + 1 }
  | .title s =>
    match extract_scan s with
    | some sc => { acc with scans := acc.scans ++ [sc] }
    | none => acc
  | _ => acc

/-- `get_mgf_summary` from `mgf_parser.py`. -/
def get_mgf_summary (lines : List MgfLine) : MgfSummary :=
  lines.foldl summaryStep { numSpectra := 0, scans := [] }

/-- The `TITLE=` payload of a lexed line, when it is one. -/
def titleText : MgfLine → Option (List Char)
  | .title s => some s
  | _ => none

/-! ## Claims C5, C6, C10 -/

theorem summary_scans_spec (lines : List MgfLine) (acc : MgfSummary) :
    (lines.foldl summaryStep acc).scans
      = acc.scans ++ (lines.filterMap titleText).filterMap extract_scan := by
  induction lines generalizing acc with
  | nil => simp
  | cons line rest ih =>
    cases line
    case title s =>
      simp only [List.foldl_cons, summaryStep]
      cases h : extract_scan s <;> simp [h, ih, titleText]
    all_goals simp [summaryStep, titleText, ih]

/-- Claim C5: scan extraction tries the four patterns in the fixed order
`scan=`, dotted, `scan(s):`, `index=` and returns the first match's
digits (or `none`); the two example titles resolve to 1234 and 55; and
the summary mode resolves scan numbers from `TITLE=` lines with the very
`_extract_scan` the full parser uses, so its collected scan list is the
`_extract_scan` image of the title payloads. -/
theorem C5_scan_extraction :
    (∀ t : List Char,
      extract_scan t =
        ((searchFirst p1At t).orElse fun _ =>
          ((searchFirst p2At t).orElse fun _ =>
            ((searchFirst p3At t).orElse fun _ => searchFirst p4At t)))) ∧
    extract_scan ("foo.1234.1234.2 File:x".toList) = some 1234 ∧
    extract_scan ("controllerType=0 scan=55".toList) = some 55 ∧
    (∀ lines : List MgfLine,
      (get_mgf_summary lines).scans
        = (lines.filterMap titleText).filterMap extract_scan) := by
  refine ⟨?_, by decide, by decide, ?_⟩
  · intro t
    simp only [extract_scan, SCAN_PATTERNS, firstMatch]
    cases searchFirst p1At t <;> cases searchFirst p2At t <;>
      cases searchFirst p3At t <;> cases searchFirst p4At t <;> rfl
  · intro lines
    simpa using summary_scans_spec lines { numSpectra := 0, scans := [] }

theorem foldl_peaks (ps : List (ℚ × ℚ)) (st : ParseState) (h : st.inIons = true) :
    (ps.map (fun p => MgfLine.peak p.1 p.2)).foldl mgfStep st
      = { st with mzs := st.mzs ++ ps.map Prod.fst,
                  ints := st.ints ++ ps.map Prod.snd } := by
  induction ps generalizing st with
  | nil => simp
  | cons p rest ih =>
    simp only [List.map_cons, List.foldl_cons, mgfStep, h, if_true]
    rw [ih _ (by simp [h])]
    simp

theorem parse_single_block (ps : List (ℚ × ℚ)) :
    parse_mgf_handle (.beginIons :: ps.map (fun p => .peak p.1 p.2) ++ [.endIons])
      = [{ title := [], scan := none, pepmass := 0, charge := 0,
           mzArray := ps.map Prod.fst,
           intArray := closeBlock (ps.map Prod.snd) }] := by
  simp only [parse_mgf_handle, List.foldl_cons, List.foldl_append]
  rw [show mgfStep initParseState .beginIons
        = { inIons := true, title := [], pepmass := 0, charge := 0,
            mzs := [], ints := [], spectra := [] } from rfl]
  rw [foldl_peaks _ _ rfl]
  rfl

theorem listMax_all_zero (l : List ℚ) (h : ∀ x ∈ l, x = 0) : listMax l = 0 := by
  match l with
  | [] => rfl
  | x :: xs =>
    simp only [listMax]
    have hx : x = 0 := h x (by simp)
    subst hx
    induction xs with
    | nil => rfl
    | cons y ys ih =>
      have hy : y = 0 := h y (by simp)
      subst hy
      simp only [List.foldl_cons, max_self]
      exact ih (by intro z hz; exact h z (by simp [hz]))

/-- Claim C6: for a block whose peaks have positive maximum intensity, the
parsed spectrum's intensity array is the raw intensities divided by the
block maximum; peaks `[(100,10),(200,30),(300,5)]` normalize to
`[1/3, 1, 1/6]`; and a block with zero peaks yields empty m/z and
intensity arrays rather than an error. -/
theorem C6_intensity_normalization :
    (∀ ps : List (ℚ × ℚ), ps ≠ [] → 0 < listMax (ps.map Prod.snd) →
      parse_mgf_handle (.beginIons :: ps.map (fun p => .peak p.1 p.2) ++ [.endIons])
        = [{ title := [], scan := none, pepmass := 0, charge := 0,
             mzArray := ps.map Prod.fst,
             intArray := (ps.map Prod.snd).map (· / listMax (ps.map Prod.snd)) }]) ∧
    parse_mgf_handle [.beginIons, .peak 100 10, .peak 200 30, .peak 300 5, .endIons]
      = [{ title := [], scan := none, pepmass := 0, charge := 0,
           mzArray := [100, 200, 300], intArray := [1/3, 1, 1/6] }] ∧
    parse_mgf_handle [.beginIons, .endIons]
      = [{ title := [], scan := none, pepmass := 0, charge := 0,
           mzArray := [], intArray := [] }] := by
  have hgen : ∀ ps : List (ℚ × ℚ), ps ≠ [] → 0 < listMax (ps.map Prod.snd) →
      parse_mgf_handle (.beginIons :: ps.map (fun p => .peak p.1 p.2) ++ [.endIons])
        = [{ title := [], scan := none, pepmass := 0, charge := 0,
             mzArray := ps.map Prod.fst,
             intArray := (ps.map Prod.snd).map (· / listMax (ps.map Prod.snd)) }] := by
    intro ps hne hpos
    rw [parse_single_block]
    have hplen : 0 < ps.length := List.length_pos.mpr hne
    simp [closeBlock, hplen, hpos]
  refine ⟨hgen, ?_, ?_⟩
  · have h := hgen [(100, 10), (200, 30), (300, 5)] (by simp)
      (by norm_num [listMax, max_def])
    norm_num [listMax, max_def] at h ⊢
    simpa using h
  · have h := parse_single_block []
    simpa using h

/-- Witness for C6: a two-peak block with maximum intensity 4 parses to
intensities `[1/2, 1]`. -/
theorem C6_intensity_normalization_witness :
    parse_mgf_handle [.beginIons, .peak 1 2, .peak 3 4, .endIons]
      = [{ title := [], scan := none, pepmass := 0, charge := 0,
           mzArray := [1, 3], intArray := [1/2, 1] }] := by
  have h := C6_intensity_normalization.1 [(1, 2), (3, 4)] (by simp)
    (by norm_num [listMax, max_def])
  norm_num [listMax, max_def] at h
  simpa using h

/-- Claim C10: a block with at least one peak whose intensities are all
zero is left untouched by the normalization — the intensity array equals
the raw (all-zero) intensities, because the division is guarded by
`max_int > 0` and never performed. -/
theorem C10_zero_intensity_block (ps : List (ℚ × ℚ)) (hne : ps ≠ [])
    (hz : ∀ p ∈ ps, p.2 = 0) :
    parse_mgf_handle (.beginIons :: ps.map (fun p => .peak p.1 p.2) ++ [.endIons])
      = [{ title := [], scan := none, pepmass := 0, charge := 0,
           mzArray := ps.map Prod.fst,
           intArray := ps.map Prod.snd }] := by
  rw [parse_single_block]
  have hmax : listMax (ps.map Prod.snd) = 0 :=
    listMax_all_zero _ (by intro x hx; rcases List.mem_map.mp hx with ⟨p, hp, rfl⟩; exact hz p hp)
  have hplen : 0 < ps.length := List.length_pos.mpr hne
  simp [closeBlock, hplen, hmax]

/-- Witness for C10: a two-peak block with zero intensities parses to a
spectrum whose intensity array is `[0, 0]`. -/
theorem C10_zero_intensity_block_witness :
    parse_mgf_handle [.beginIons, .peak 100 0, .peak 200 0, .endIons]
      = [{ title := [], scan := none, pepmass := 0, charge := 0,
           mzArray := [100, 200], intArray := [0, 0] }] := by
  have h := C10_zero_intensity_block [(100, 0), (200, 0)] (by simp) (by simp)
  simpa using h

/-! ## Claim C8 — matrix → ion list -/

/-- A cell `(pos, ion_type)` survives the two `continue` guards of
`intensity_matrix_to_ion_list` iff its intensity strictly exceeds the
threshold and its annotation label is non-empty. -/
def qualifiesB (minIntensity : ℚ) (M : Nat → Nat → ℚ) (pos ionType : Nat) : Bool :=
  decide (minIntensity < M pos ionType) && decide (ANNOTATION_MATRIX ionType pos ≠ "")

/-- The record emitted for a surviving cell. -/
def mkIonRec (mzMap : List (String × ℚ)) (M : Nat → Nat → ℚ)
    (pr : Nat × Nat) : IonRec :=
  let label := ANNOTATION_MATRIX pr.2 pr.1
  { label := label, type := ionTypeOf label,
    mz := pyRound 4 (mzGet mzMap label),
    intensity := pyRound 6 (M pr.1 pr.2) }

/-- The surviving cells in traversal order (outer `pos`, inner
`ion_type`). -/
def qualifyingCells (minIntensity : ℚ) (shape0 shape1 : Nat)
    (M : Nat → Nat → ℚ) : List (Nat × Nat) :=
  (List.range shape0).flatMap (fun pos =>
    ((List.range shape1).filter (fun ionType => qualifiesB minIntensity M pos ionType)).map
      (fun ionType => (pos, ionType)))

theorem cellRecord_eq (mzMap : List (String × ℚ)) (minIntensity : ℚ)
    (M : Nat → Nat → ℚ) (pos ionType : Nat) :
    cellRecord mzMap minIntensity M pos ionType
      = if qualifiesB minIntensity M pos ionType
        then some (mkIonRec mzMap M (pos, ionType)) else none := by
  by_cases h1 : M pos ionType ≤ minIntensity
  · have h1' : ¬ minIntensity < M pos ionType := not_lt.mpr h1
    simp [cellRecord, qualifiesB, h1, h1']
  · have h1' : minIntensity < M pos ionType := not_le.mp h1
    by_cases h2 : ANNOTATION_MATRIX ionType pos = "" <;>
      simp [cellRecord, qualifiesB, mkIonRec, h1, h1', h2]

theorem filterMap_if {α β : Type} (p : α → Bool) (g : α → β) (f : α → Option β)
    (hf : ∀ a, f a = if p a then some (g a) else none) :
    ∀ l : List α, l.filterMap f = (l.filter p).map g := by
  intro l
  induction l with
  | nil => simp
  | cons a l ih =>
    cases hp : p a <;> simp [List.filterMap_cons, List.filter_cons, hf, hp, ih]

theorem flatMap_congr {α β : Type} (f g : α → List β) (l : List α)
    (h : ∀ a ∈ l, f a = g a) : l.flatMap f = l.flatMap g := by
  induction l with
  | nil => rfl
  | cons a l ih =>
    simp only [List.flatMap_cons, h a (by simp),
      ih (fun a ha => h a (by simp [ha]))]

theorem ionTraversal_eq (mzMap : List (String × ℚ)) (minIntensity : ℚ)
    (shape0 shape1 : Nat) (M : Nat → Nat → ℚ) :
    ionTraversal mzMap minIntensity shape0 shape1 M
      = (qualifyingCells minIntensity shape0 shape1 M).map (mkIonRec mzMap M) := by
  simp only [ionTraversal, qualifyingCells]
  rw [List.map_flatMap]
  refine flatMap_congr _ _ _ (fun pos _ => ?_)
  rw [filterMap_if (fun ionType => qualifiesB minIntensity M pos ionType)
        (fun ionType => mkIonRec mzMap M (pos, ionType))
        (fun ionType => cellRecord mzMap minIntensity M pos ionType)
        (fun ionType => cellRecord_eq mzMap minIntensity M pos ionType)]
  rw [List.map_map]
  rfl

theorem filter_orderedInsert (v : ℚ) (x : IonRec) (l : List IonRec) :
    (List.orderedInsert ionGE x l).filter (fun r => r.intensity = v)
      = (x :: l).filter (fun r => r.intensity = v) := by
  induction l with
  | nil => simp [List.orderedInsert]
  | cons y ys ih =>
    simp only [List.orderedInsert]
    by_cases h : ionGE x y
    · simp [h]
    · have h' : ¬ (y.intensity ≤ x.intensity) := h
      have hxy : x.intensity < y.intensity := not_le.mp h'
      rw [if_neg h]
      by_cases hy : y.intensity = v
      · by_cases hx : x.intensity = v
        · exact absurd (hx.trans hy.symm) (ne_of_lt hxy)
        · simp [List.filter_cons, hy, hx, ih]
      · simp [List.filter_cons, hy, ih]

theorem filter_insertionSort (v : ℚ) (l : List IonRec) :
    (List.insertionSort ionGE l).filter (fun r => r.intensity = v)
      = l.filter (fun r => r.intensity = v) := by
  induction l with
  | nil => rfl
  | cons x xs ih =>
    simp only [List.insertionSort]
    rw [filter_orderedInsert, List.filter_cons, List.filter_cons, ih]

/-- The theoretical m/z map the source computes for `"ACDK"`, with all
values as explicit rationals. -/
def mzMapACDK : List (String × ℚ) :=
  [("b1", 72.044386), ("b1^2", 36.525831), ("y1", 365.148926), ("y1^2", 183.078101),
   ("b2", 175.053576), ("b2^2", 88.030426), ("y2", 262.139736), ("y2^2", 131.573506),
   ("b3", 290.080516), ("b3^2", 145.543896), ("y3", 147.112796), ("y3^2", 74.060036)]

theorem mzMapACDK_spec : compute_theoretical_mz ("ACDK".toList) 1 = .ok mzMapACDK := by
  have htok : tokenize_peptide ("ACDK".toList) = .ok [['A'],['C'],['D'],['K']] := rfl
  have hrm : residue_masses [['A'],['C'],['D'],['K']]
      = [(71.03711 : ℚ), 103.00919, 115.02694, 128.09496] := rfl
  simp only [compute_theoretical_mz, htok, hrm, Except.bind, bind]
  norm_num [mzMapACDK, List.range_succ, WATER_MASS, PROTON_MASS, pure, Except.pure,
    show "b" ++ toString 1 = "b1" from rfl, show "b" ++ toString 2 = "b2" from rfl,
    show "b" ++ toString 3 = "b3" from rfl, show "y" ++ toString 1 = "y1" from rfl,
    show "y" ++ toString 2 = "y2" from rfl, show "y" ++ toString 3 = "y3" from rfl]
  simp

/-- Claim C8, counterexample: a `(29 × 31)` matrix whose only nonzero cell
is `(pos 0, ion_type 30)` — an internal-fragment row whose annotation
label is empty (`m_end = 30 > 29`) — yields an empty ion list, not the
"exactly one record" the claim asserts for every single-nonzero-cell
matrix. -/
theorem C8_counterexample :
    ¬ ((intensity_matrix_to_ion_list 29 31
          (fun pos ion => if pos = 0 ∧ ion = 30 then (1 : ℚ) else 0)
          ("ACDK".toList) 1 0).toOption.map List.length = some 1) := by
  have hq : qualifyingCells 0 29 31
      (fun pos ion => if pos = 0 ∧ ion = 30 then (1 : ℚ) else 0) = [] := by decide
  have hmz2 : compute_theoretical_mz (['A','C','D','K']) 1 = .ok mzMapACDK :=
    mzMapACDK_spec
  simp [intensity_matrix_to_ion_list, mzMapACDK_spec, hmz2, Except.bind, bind, pure,
    Except.pure, Except.toOption, ionTraversal_eq, hq, List.insertionSort]

/-- Claim C8, amended: for every `(29 × 31)` intensity matrix, the
conversion emits exactly one record per cell whose intensity strictly
exceeds the threshold and whose annotation label (read as
`annotation[ion_type, pos]`) is non-empty; the result is a permutation of
the traversal-order records (outer loop over position, inner loop over
ion type), sorted by intensity descending with equal intensities kept in
traversal order; an all-zero matrix yields the empty list, and a matrix
whose single qualifying cell is `(p0, i0)` yields exactly the one record
of that cell with rounded intensity and m/z. -/
theorem C8_matrix_to_ion_list (M : Nat → Nat → ℚ) (minI : ℚ) (seq : List Char)
    (ch : ℤ) (mzMap : List (String × ℚ))
    (hmz : compute_theoretical_mz seq ch = .ok mzMap) :
    intensity_matrix_to_ion_list 29 31 M seq ch minI
      = .ok (List.insertionSort ionGE (ionTraversal mzMap minI 29 31 M)) ∧
    (List.insertionSort ionGE (ionTraversal mzMap minI 29 31 M)).length
      = (qualifyingCells minI 29 31 M).length ∧
    (List.insertionSort ionGE (ionTraversal mzMap minI 29 31 M)).Perm
      ((qualifyingCells minI 29 31 M).map (mkIonRec mzMap M)) ∧
    List.Sorted ionGE (List.insertionSort ionGE (ionTraversal mzMap minI 29 31 M)) ∧
    (∀ v : ℚ,
      (List.insertionSort ionGE (ionTraversal mzMap minI 29 31 M)).filter
          (fun r => r.intensity = v)
        = (ionTraversal mzMap minI 29 31 M).filter (fun r => r.intensity = v)) ∧
    ((∀ p i, M p i = 0) → minI = 0 →
      intensity_matrix_to_ion_list 29 31 M seq ch minI = .ok []) ∧
    (∀ p0 i0, qualifyingCells minI 29 31 M = [(p0, i0)] →
      intensity_matrix_to_ion_list 29 31 M seq ch minI
        = .ok [mkIonRec mzMap M (p0, i0)]) := by
  have hrun : intensity_matrix_to_ion_list 29 31 M seq ch minI
      = .ok (List.insertionSort ionGE (ionTraversal mzMap minI 29 31 M)) := by
    simp [intensity_matrix_to_ion_list, hmz, Except.bind, bind, pure, Except.pure]
  refine ⟨hrun, ?_, ?_, ?_, ?_, ?_, ?_⟩
  · rw [List.length_insertionSort, ionTraversal_eq, List.length_map]
  · exact (List.perm_insertionSort ionGE _).trans (by rw [ionTraversal_eq])
  · exact List.sorted_insertionSort ionGE _
  · intro v
    exact filter_insertionSort v _
  · intro hM h0
    have hq : qualifyingCells minI 29 31 M = [] := by
      subst h0
      simp [qualifyingCells, qualifiesB, hM]
    rw [hrun, ionTraversal_eq, hq]
    rfl
  · intro p0 i0 hq
    rw [hrun, ionTraversal_eq, hq]
    rfl

/-- Witness for C8: the matrix whose single qualifying cell is
`(pos 0, ion_type 0)` with intensity 1 — the `b1` cell — converts, for
peptide `"ACDK"` at charge 1 and threshold 0, to exactly one record
carrying label `b1`, type `b`, the rounded m/z 72.0444 and rounded
intensity 1. -/
theorem C8_matrix_to_ion_list_witness :
    intensity_matrix_to_ion_list 29 31
        (fun pos ion => if pos = 0 ∧ ion = 0 then (1 : ℚ) else 0)
        ("ACDK".toList) 1 0
      = .ok [{ label := "b1", type := "b", mz := 72.0444, intensity := 1 }] := by
  have hq : qualifyingCells 0 29 31
      (fun pos ion => if pos = 0 ∧ ion = 0 then (1 : ℚ) else 0) = [(0, 0)] := by decide
  have h := (C8_matrix_to_ion_list
      (fun pos ion => if pos = 0 ∧ ion = 0 then (1 : ℚ) else 0)
      0 ("ACDK".toList) 1 mzMapACDK mzMapACDK_spec).2.2.2.2.2.2 0 0 hq
  rw [h]
  have hlbl : ANNOTATION_MATRIX 0 0 = "b1" := by decide
  have hmz : mzGet mzMapACDK "b1" = 72.044386 := by
    norm_num [mzMapACDK, mzGet_cons]
  norm_num [mkIonRec, hlbl, hmz, show ionTypeOf "b1" = "b" from rfl, pyRound,
    roundHalfEven]

/-! ## ptm_pipeline.py — step 8 FLR cutoff (claim C7) -/

/-- A row of the `step7_flr_curve.csv` artifact. -/
structure FlrRow where
  esti_FLR : ℚ
  cutoff : ℚ
deriving DecidableEq, Repr

/-- `pandas.Series.min` over a nonempty column (0 for the empty list,
unused: the source only takes the min after a nonempty check). -/
def listMinQ : List ℚ → ℚ
  | [] => 0
  | x :: xs => xs.foldl min x

/-- The `delta_cutoff` derivation of `_step08_export_phosphosites`
(`ptm_pipeline.py`): 0 when the FLR-curve artifact is missing; otherwise
the minimum `cutoff` among rows with `esti_FLR ≤ target_flr`, or 0 when no
row qualifies.  The artifact is `none` when `flr_csv.exists()` is false. -/
def deltaCutoff (flrCurve : Option (List FlrRow)) (targetFlr : ℚ) : ℚ :=
  match flrCurve with
  | none => 0
  | some rows =>
    let atTarget := rows.filter (fun r => r.esti_FLR ≤ targetFlr)
    if 0 < atTarget.length then listMinQ (atTarget.map (fun r => r.cutoff)) else 0

theorem foldl_min_mem (xs : List ℚ) : ∀ x : ℚ, xs.foldl min x ∈ x :: xs := by
  induction xs with
  | nil => intro x; simp
  | cons y ys ih =>
    intro x
    rw [List.foldl_cons]
    rcases List.mem_cons.mp (ih (min x y)) with h1 | h1
    · rcases min_choice x y with hm | hm <;> rw [h1, hm] <;> simp
    · exact List.mem_cons_of_mem _ (List.mem_cons_of_mem _ h1)

theorem foldl_min_le (xs : List ℚ) : ∀ x z : ℚ, z ∈ x :: xs → xs.foldl min x ≤ z := by
  induction xs with
  | nil =>
    intro x z hz
    simp at hz
    simp [hz]
  | cons y ys ih =>
    intro x z hz
    have hle : List.foldl min (min x y) ys ≤ min x y := ih (min x y) (min x y) (by simp)
    rw [List.foldl_cons]
    rcases List.mem_cons.mp hz with rfl | hz1
    · exact hle.trans (min_le_left _ _)
    · rcases List.mem_cons.mp hz1 with rfl | hz2
      · exact hle.trans (min_le_right _ _)
      · exact ih (min x y) z (List.mem_cons_of_mem _ hz2)

theorem listMinQ_mem (l : List ℚ) (h : l ≠ []) : listMinQ l ∈ l := by
  match l with
  | [] => exact absurd rfl h
  | y :: ys => exact foldl_min_mem ys y

theorem listMinQ_le (l : List ℚ) (x : ℚ) (hx : x ∈ l) : listMinQ l ≤ x := by
  match l with
  | [] => simp at hx
  | y :: ys => exact foldl_min_le ys y x hx

/-- Claim C7: when the FLR-curve artifact exists, the score cutoff used by
the phosphosite export is the minimum `cutoff` among rows whose estimated
FLR is ≤ the target threshold — a lower bound of all qualifying cutoffs
that is attained by a qualifying row — and it defaults to 0 when no row
meets the threshold (and when the artifact is missing). -/
theorem C7_flr_cutoff (rows : List FlrRow) (targetFlr : ℚ) :
    (∀ r ∈ rows, r.esti_FLR ≤ targetFlr →
      deltaCutoff (some rows) targetFlr ≤ r.cutoff) ∧
    (rows.filter (fun r => r.esti_FLR ≤ targetFlr) ≠ [] →
      ∃ r ∈ rows, r.esti_FLR ≤ targetFlr ∧
        deltaCutoff (some rows) targetFlr = r.cutoff) ∧
    (rows.filter (fun r => r.esti_FLR ≤ targetFlr) = [] →
      deltaCutoff (some rows) targetFlr = 0) ∧
    deltaCutoff none targetFlr = 0 := by
  refine ⟨?_, ?_, ?_, rfl⟩
  · intro r hr hle
    have hmem : r ∈ rows.filter (fun r => r.esti_FLR ≤ targetFlr) :=
      List.mem_filter.mpr ⟨hr, by simpa using hle⟩
    have hne : rows.filter (fun r => r.esti_FLR ≤ targetFlr) ≠ [] :=
      List.ne_nil_of_mem hmem
    have hlen : 0 < (rows.filter (fun r => r.esti_FLR ≤ targetFlr)).length :=
      List.length_pos.mpr hne
    simp only [deltaCutoff, if_pos hlen]
    exact listMinQ_le _ _ (List.mem_map.mpr ⟨r, hmem, rfl⟩)
  · intro hne
    have hlen : 0 < (rows.filter (fun r => r.esti_FLR ≤ targetFlr)).length :=
      List.length_pos.mpr hne
    have hmem := listMinQ_mem ((rows.filter (fun r => r.esti_FLR ≤ targetFlr)).map
      (fun r => r.cutoff)) (by simpa using hne)
    rcases List.mem_map.mp hmem with ⟨r, hr, hval⟩
    have hr' := List.mem_filter.mp hr
    refine ⟨r, hr'.1, by simpa using hr'.2, ?_⟩
    simp only [deltaCutoff, if_pos hlen]
    exact hval.symm
  · intro hnil
    simp [deltaCutoff, hnil]

/-- Witness for C7: for the curve `[(FLR 0.005, cutoff 0.8),
(FLR 0.02, cutoff 0.5)]` at target 0.01, the derived cutoff is a lower
bound of the single qualifying cutoff 0.8. -/
theorem C7_flr_cutoff_witness :
    deltaCutoff (some [⟨0.005, 0.8⟩, ⟨0.02, 0.5⟩]) 0.01 ≤ 0.8 := by
  exact (C7_flr_cutoff [⟨0.005, 0.8⟩, ⟨0.02, 0.5⟩] 0.01).1
    ⟨0.005, 0.8⟩ (by simp) (by norm_num)

/-! ## job_manager.py / ptm_job_manager.py — retention cleanup (claim C1) -/

/-- Job status, shared by `JobStatus` (`job_manager.py`) and
`PtmJobStatus` (`ptm_job_manager.py`). -/
inductive JStatus
  | pending
  | running
  | completed
  | failed
deriving DecidableEq, Repr

def isTerminal : JStatus → Bool
  | .completed => true
  | .failed => true
  | _ => false

/-- The slice of a job record the retention sweep reads: identity, status,
creation timestamp (seconds), and whether its working directory exists on
disk. -/
structure CleanupJob where
  jobId : Nat
  status : JStatus
  createdAt : ℚ
  hasDir : Bool
deriving DecidableEq, Repr

/-- `(now - job.created_at).total_seconds() / 3600`. -/
def ageHours (now : ℚ) (j : CleanupJob) : ℚ := (now - j.createdAt) / 3600

/-- The removal test of `cleanup_old_jobs`: `age_hours > JOB_RETENTION_HOURS`.
Note there is no status test. -/
def expired (now retentionHours : ℚ) (j : CleanupJob) : Bool :=
  decide (ageHours now j > retentionHours)

/-- The observable outcome of one cleanup sweep: the registry afterwards,
the records deleted, the working directories removed, and the returned
count. -/
structure CleanupResult where
  remaining : List CleanupJob
  removed : List CleanupJob
  removedDirs : List Nat
  count : Nat
deriving DecidableEq, Repr

/-- `cleanup_old_jobs` from `job_manager.py` (the loop of
`PtmJobManager.cleanup_old_jobs` in `ptm_job_manager.py` is identical):
under the registry lock, collect every job whose age exceeds
`JOB_RETENTION_HOURS`, delete each collected record, remove its working
directory when it exists, and return the number collected. -/
def cleanup_old_jobs (now retentionHours : ℚ) (jobs : List CleanupJob) :
    CleanupResult :=
  let toRemove := jobs.filter (expired now retentionHours)
  { remaining := jobs.filter (fun j => ¬ expired now retentionHours j),
    removed := toRemove,
    removedDirs := (toRemove.filter (fun j => j.hasDir)).map (fun j => j.jobId),
    count := toRemove.length }

/-- Claim C1, counterexample: a registry holding a single `running` job of
age 25 hours (horizon 24) — the sweep removes it even though it is not in
a terminal state, refuting "never deletes a running job". -/
theorem C1_counterexample :
    ¬ (∀ j ∈ (cleanup_old_jobs 90000 24
          [⟨0, JStatus.running, 0, true⟩]).removed,
        isTerminal j.status = true) := by
  intro h
  have hexp : expired 90000 24 ⟨0, JStatus.running, 0, true⟩ = true := by
    simp only [expired, ageHours, decide_eq_true_eq]
    norm_num
  have hmem : (⟨0, JStatus.running, 0, true⟩ : CleanupJob)
      ∈ (cleanup_old_jobs 90000 24 [⟨0, JStatus.running, 0, true⟩]).removed := by
    simp [cleanup_old_jobs, List.filter_cons, hexp]
  have hterm := h _ hmem
  simp [isTerminal] at hterm

/-- Claim C1, amended: the retention sweep removes exactly the jobs whose
age exceeds the horizon, regardless of status (a running job old enough is
removed too); each removed job's working directory is removed when it
exists; the returned count equals the number of jobs removed; and every
job either stays in the registry or is removed. -/
theorem C1_cleanup_old_jobs (now retentionHours : ℚ) (jobs : List CleanupJob) :
    (∀ j ∈ (cleanup_old_jobs now retentionHours jobs).removed,
      ageHours now j > retentionHours) ∧
    (cleanup_old_jobs now retentionHours jobs).count
      = (cleanup_old_jobs now retentionHours jobs).removed.length ∧
    (cleanup_old_jobs now retentionHours jobs).removedDirs
      = (((cleanup_old_jobs now retentionHours jobs).removed.filter
          (fun j => j.hasDir)).map (fun j => j.jobId)) ∧
    (cleanup_old_jobs now retentionHours jobs).remaining
      = jobs.filter (fun j => ¬ (ageHours now j > retentionHours)) ∧
    (∀ j ∈ jobs, j ∈ (cleanup_old_jobs now retentionHours jobs).removed
      ∨ j ∈ (cleanup_old_jobs now retentionHours jobs).remaining) := by
  refine ⟨?_, rfl, rfl, ?_, ?_⟩
  · intro j hj
    have := List.of_mem_filter hj
    simpa [expired] using this
  · simp [cleanup_old_jobs, expired]
  · intro j hj
    by_cases h : expired now retentionHours j = true
    · exact Or.inl (List.mem_filter.mpr ⟨hj, h⟩)
    · exact Or.inr (List.mem_filter.mpr ⟨hj, by simp [h]⟩)

/-- Witness for C1: an old completed job is removed, its age exceeding the
horizon. -/
theorem C1_cleanup_old_jobs_witness :
    ageHours 90000 ⟨1, JStatus.completed, 0, true⟩ > 24 := by
  refine (C1_cleanup_old_jobs 90000 24 [⟨1, JStatus.completed, 0, true⟩]).1
    ⟨1, JStatus.completed, 0, true⟩ ?_
  have hexp : expired 90000 24 ⟨1, JStatus.completed, 0, true⟩ = true := by
    simp only [expired, ageHours, decide_eq_true_eq]
    norm_num
  simp [cleanup_old_jobs, List.filter_cons, hexp]

/-! ## job_manager.py — job lifecycle (claim C2)

`JobInfo` is mutated only by its own worker thread, and every mutation is
a block taken under the registry lock; a concurrent reader (also under
the lock) therefore observes exactly the state after some prefix of the
worker's sequence of atomic mutations.  The worker's mutation sequence is
modelled as a list of events, read from `JobManager._run_job` and from
the callback sites in `predictor.predict_batch_from_arrays`. -/

/-- The batch job record of `job_manager.py` (the fields the worker
mutates, plus the immutable `total_samples`). -/
structure BatchJob where
  status : JStatus
  totalSamples : Nat
  processed : Nat
  startedAt : Option ℚ
  finishedAt : Option ℚ
  error : Option String
deriving DecidableEq, Repr

/-- The record `submit` creates: `pending`, `processed = 0`. -/
def initBatchJob (total : Nat) : BatchJob :=
  { status := .pending, totalSamples := total, processed := 0,
    startedAt := none, finishedAt := none, error := none }

/-- One lock-protected mutation block of `_run_job` / `progress_cb`. -/
inductive BEvent
  | start (t : ℚ)
  | progress (p : Nat)
  | complete (t : ℚ)
  | fail (e : String) (t : ℚ)
deriving DecidableEq, Repr

/-- The state change of each mutation block, exactly as written in
`JobManager._run_job`. -/
def bstep (j : BatchJob) : BEvent → BatchJob
  | .start t => { j with status := .running, startedAt := some t }
  | .progress p => { j with processed := p }
  | .complete t =>
    { j with status := .completed, processed := j.totalSamples,
             finishedAt := some t }
  | .fail e t =>
    { j with status := .failed, error := some e, finishedAt := some t }

/-- The job state after a sequence of worker mutations. -/
def runJob (total : Nat) (events : List BEvent) : BatchJob :=
  events.foldl bstep (initBatchJob total)

/-- The `processed` values `predict_batch_from_arrays` feeds the progress
callback: `end = min(start + batch_size, n)` for each mini-batch of 1024,
i.e. `min ((k+1)*1024) n` for `k < ⌈n / 1024⌉`. -/
def callbackVals (n : Nat) : List Nat :=
  (List.range ((n + 1023) / 1024)).map (fun k => min ((k + 1) * 1024) n)

/-- The complete mutation sequences `_run_job` can emit: `start`, then the
predictor's progress callbacks (all of them on success, some prefix when
`predict_fn` raises mid-way), then `complete` or `fail`.  No event follows
a terminal event, because `predict_fn` has returned before the terminal
block runs and nothing else mutates the record. -/
inductive WorkerRun (total : Nat) : List BEvent → Prop
  | completes (t1 t2 : ℚ) :
      WorkerRun total
        (.start t1 :: ((callbackVals total).map .progress) ++ [.complete t2])
  | fails (t1 t2 : ℚ) (e : String) (k : Nat) :
      WorkerRun total
        (.start t1 :: (((callbackVals total).take k).map .progress) ++ [.fail e t2])

def statusRank : JStatus → Nat
  | .pending => 0
  | .running => 1
  | .completed => 2
  | .failed => 2

/-- The state after `start` followed by progress callbacks `ks`. -/
def runningJob (total : Nat) (t1 : ℚ) (ks : List Nat) : BatchJob :=
  { status := .running, totalSamples := total,
    processed := ks.getLast?.getD 0,
    startedAt := some t1, finishedAt := none, error := none }

theorem foldl_progress (ps : List Nat) (j : BatchJob) :
    (ps.map BEvent.progress).foldl bstep j
      = { j with processed := ps.getLast?.getD j.processed } := by
  induction ps generalizing j with
  | nil => simp
  | cons p rest ih =>
    rw [List.map_cons, List.foldl_cons]
    show (rest.map BEvent.progress).foldl bstep { j with processed := p } = _
    rw [ih]
    cases rest with
    | nil => rfl
    | cons r rs => rfl

/-- Closed form of the job state at every read point of a worker trace
`start t1 :: progress* ++ [term]`. -/
def shapeAt (total : Nat) (t1 : ℚ) (qs : List Nat) (term : BEvent) (i : Nat) :
    BatchJob :=
  if i = 0 then initBatchJob total
  else if i ≤ qs.length + 1 then runningJob total t1 (qs.take (i - 1))
  else bstep (runningJob total t1 qs) term

theorem runJob_take_eq (total : Nat) (t1 : ℚ) (qs : List Nat) (term : BEvent)
    (i : Nat) :
    runJob total ((BEvent.start t1 :: (qs.map .progress) ++ [term]).take i)
      = shapeAt total t1 qs term i := by
  cases i with
  | zero => rfl
  | succ j =>
    rw [show BEvent.start t1 :: (qs.map .progress) ++ [term]
          = BEvent.start t1 :: ((qs.map .progress) ++ [term]) from rfl,
        List.take_succ_cons]
    by_cases hj : j ≤ qs.length
    · rw [List.take_append_of_le_length (by simpa using hj)]
      rw [← List.map_take]
      show (((qs.take j).map BEvent.progress).foldl bstep
          (bstep (initBatchJob total) (.start t1))) = _
      rw [foldl_progress]
      simp only [shapeAt, if_neg (Nat.succ_ne_zero j), if_pos (by omega : j + 1 ≤ qs.length + 1)]
      rfl
    · rw [List.take_of_length_le (by simp; omega)]
      show ((qs.map BEvent.progress ++ [term]).foldl bstep
          (bstep (initBatchJob total) (.start t1))) = _
      rw [List.foldl_append, foldl_progress]
      simp only [shapeAt, if_neg (Nat.succ_ne_zero j), if_neg (by omega : ¬ j + 1 ≤ qs.length + 1)]
      rfl

theorem getLast?_getD_le (ks : List Nat) (total : Nat)
    (h : ∀ p ∈ ks, p ≤ total) : ks.getLast?.getD 0 ≤ total := by
  cases hl : ks.getLast? with
  | none => simp
  | some v =>
    have hv : v ∈ ks := by
      rcases List.mem_getLast?_eq_getLast (show v ∈ ks.getLast? by simp [hl]) with ⟨hne, hveq⟩
      rw [hveq]
      exact List.getLast_mem hne
    simpa using h v hv

theorem callbackVals_le (n : Nat) : ∀ p ∈ callbackVals n, p ≤ n := by
  intro p hp
  rcases List.mem_map.mp hp with ⟨k, _, rfl⟩
  exact min_le_right _ _

/-! ## ptm_job_manager.py — job lifecycle (claim C2, pipeline jobs) -/

/-- The named metric counters of `PtmJobInfo`. -/
structure PtmMetrics where
  total_phospho_psms : Nat
  mono_phospho_psms : Nat
  td_candidates : Nat
  flr_1pct_psms : Nat
  flr_5pct_psms : Nat
  phosphosites_exported : Nat
deriving DecidableEq, Repr

/-- The `PtmJobInfo` record of `ptm_job_manager.py`. -/
structure PtmJob where
  status : JStatus
  currentStep : Nat
  totalSteps : Nat
  stepMessage : String
  metrics : PtmMetrics
  resultFiles : List String
  startedAt : Option ℚ
  finishedAt : Option ℚ
  error : Option String

def initPtmJob : PtmJob :=
  { status := .pending, currentStep := 0, totalSteps := 8, stepMessage := "",
    metrics := ⟨0, 0, 0, 0, 0, 0⟩, resultFiles := [],
    startedAt := none, finishedAt := none, error := none }

/-- One lock-protected mutation block of `PtmJobManager._run_job` /
`progress_callback`.  The `hasattr`-filtered keyword updates of a progress
callback are modelled as a function on the metric counters. -/
inductive PEvent
  | start (t : ℚ)
  | progress (step tot : Nat) (msg : String) (update : PtmMetrics → PtmMetrics)
  | complete (t : ℚ) (m : PtmMetrics) (files : List String)
  | fail (e : String) (t : ℚ)

/-- The state change of each mutation block of `PtmJobManager._run_job`. -/
def pstep (j : PtmJob) : PEvent → PtmJob
  | .start t => { j with status := .running, startedAt := some t }
  | .progress step tot msg update =>
    { j with currentStep := step, totalSteps := tot, stepMessage := msg,
             metrics := update j.metrics }
  | .complete t m files =>
    { j with status := .completed, currentStep := j.totalSteps,
             stepMessage := "Done", finishedAt := some t, metrics := m,
             resultFiles := files }
  | .fail e t =>
    { j with status := .failed, error := some e, finishedAt := some t }

def runPtmJob (events : List PEvent) : PtmJob :=
  events.foldl pstep initPtmJob

def isPProgress : PEvent → Bool
  | .progress _ _ _ _ => true
  | _ => false

/-- The complete mutation sequences `PtmJobManager._run_job` can emit:
`start`, then progress callbacks from the pipeline, then `complete` or
`fail`; nothing follows a terminal event (`pipeline_fn` has returned, and
the `finally` block touches only the manager's `_running` flag). -/
inductive PtmWorkerRun : List PEvent → Prop
  | completes (t1 t2 : ℚ) (ps : List PEvent)
      (hps : ∀ e ∈ ps, isPProgress e = true) (m : PtmMetrics)
      (files : List String) :
      PtmWorkerRun (.start t1 :: ps ++ [.complete t2 m files])
  | fails (t1 t2 : ℚ) (ps : List PEvent)
      (hps : ∀ e ∈ ps, isPProgress e = true) (e : String) :
      PtmWorkerRun (.start t1 :: ps ++ [.fail e t2])

theorem foldl_pprogress_status (ps : List PEvent)
    (hps : ∀ e ∈ ps, isPProgress e = true) (j : PtmJob) :
    (ps.foldl pstep j).status = j.status := by
  induction ps generalizing j with
  | nil => rfl
  | cons e rest ih =>
    have he := hps e (by simp)
    cases e with
    | progress a b c d =>
      rw [List.foldl_cons]
      exact ih (fun x hx => hps x (by simp [hx])) _
    | start t => simp [isPProgress] at he
    | complete t m files => simp [isPProgress] at he
    | fail er t => simp [isPProgress] at he

theorem rank_of_terminal (s : JStatus) (h : isTerminal s = true) :
    statusRank s = 2 := by
  cases s <;> simp_all [isTerminal, statusRank]

theorem ptmStatus_take (t1 : ℚ) (ps : List PEvent)
    (hps : ∀ e ∈ ps, isPProgress e = true) (term : PEvent) (i : Nat) :
    (runPtmJob ((PEvent.start t1 :: ps ++ [term]).take i)).status
      = if i = 0 then JStatus.pending
        else if i ≤ ps.length + 1 then JStatus.running
        else (pstep (ps.foldl pstep (pstep initPtmJob (.start t1))) term).status := by
  cases i with
  | zero => rfl
  | succ j =>
    rw [show PEvent.start t1 :: ps ++ [term]
          = PEvent.start t1 :: (ps ++ [term]) from rfl,
        List.take_succ_cons]
    by_cases hj : j ≤ ps.length
    · rw [List.take_append_of_le_length hj]
      rw [if_neg (Nat.succ_ne_zero j), if_pos (by omega)]
      show ((ps.take j).foldl pstep (pstep initPtmJob (.start t1))).status = _
      rw [foldl_pprogress_status _ (fun x hx => hps x (List.take_subset _ _ hx))]
      rfl
    · rw [List.take_of_length_le (by simp; omega)]
      rw [if_neg (Nat.succ_ne_zero j), if_neg (by omega)]
      show ((ps ++ [term]).foldl pstep (pstep initPtmJob (.start t1))).status = _
      rw [List.foldl_append]
      rfl

/-! ## Claim C2 -/

theorem shapeAt_spec (total : Nat) (t1 : ℚ) (qs : List Nat) (term : BEvent)
    (hqs : ∀ p ∈ qs, p ≤ total)
    (hterm : isTerminal (bstep (runningJob total t1 qs) term).status = true)
    (htermTotal : (bstep (runningJob total t1 qs) term).totalSamples = total)
    (htermProc : (bstep (runningJob total t1 qs) term).processed ≤ total)
    (i i' : Nat) (hii : i ≤ i') :
    (shapeAt total t1 qs term i).processed ≤ (shapeAt total t1 qs term i).totalSamples ∧
    (shapeAt total t1 qs term i).totalSamples = total ∧
    statusRank (shapeAt total t1 qs term i).status
      ≤ statusRank (shapeAt total t1 qs term i').status ∧
    (i' = i + 1 →
      (shapeAt total t1 qs term i').status = (shapeAt total t1 qs term i).status ∨
      ((shapeAt total t1 qs term i).status = .pending ∧
        (shapeAt total t1 qs term i').status = .running) ∨
      ((shapeAt total t1 qs term i).status = .running ∧
        isTerminal (shapeAt total t1 qs term i').status = true)) ∧
    (isTerminal (shapeAt total t1 qs term i).status = true →
      shapeAt total t1 qs term i' = shapeAt total t1 qs term i) := by
  have htotal : ∀ j : Nat, (shapeAt total t1 qs term j).totalSamples = total := by
    intro j
    unfold shapeAt
    split_ifs
    · rfl
    · rfl
    · exact htermTotal
  have hproc : ∀ j : Nat, (shapeAt total t1 qs term j).processed ≤ total := by
    intro j
    unfold shapeAt
    split_ifs
    · simp [initBatchJob]
    · exact getLast?_getD_le _ _ (fun p hp => hqs p (List.take_subset _ _ hp))
    · exact htermProc
  have hstat : ∀ j : Nat, (shapeAt total t1 qs term j).status
      = if j = 0 then JStatus.pending else if j ≤ qs.length + 1 then .running
        else (bstep (runningJob total t1 qs) term).status := by
    intro j
    unfold shapeAt
    split_ifs <;> rfl
  have hrank2 := rank_of_terminal _ hterm
  refine ⟨(htotal i).symm ▸ hproc i, htotal i, ?_, ?_, ?_⟩
  · rw [hstat i, hstat i']
    by_cases h0 : i = 0
    · rw [if_pos h0]
      exact Nat.zero_le _
    · by_cases h1 : i ≤ qs.length + 1
      · rw [if_neg h0, if_pos h1, if_neg (by omega : ¬ i' = 0)]
        by_cases h1' : i' ≤ qs.length + 1
        · rw [if_pos h1']
        · rw [if_neg h1', hrank2]
          decide
      · rw [if_neg h0, if_neg h1, if_neg (by omega : ¬ i' = 0),
            if_neg (by omega : ¬ i' ≤ qs.length + 1)]
  · intro hip
    subst hip
    rw [hstat i, hstat (i + 1)]
    by_cases h0 : i = 0
    · rw [if_pos h0, if_neg (by omega : ¬ i + 1 = 0),
          if_pos (by omega : i + 1 ≤ qs.length + 1)]
      exact Or.inr (Or.inl ⟨rfl, rfl⟩)
    · by_cases h1 : i ≤ qs.length
      · rw [if_neg h0, if_pos (by omega : i ≤ qs.length + 1),
            if_neg (by omega : ¬ i + 1 = 0),
            if_pos (by omega : i + 1 ≤ qs.length + 1)]
        exact Or.inl rfl
      · by_cases h2 : i = qs.length + 1
        · rw [if_neg h0, if_pos (by omega : i ≤ qs.length + 1),
              if_neg (by omega : ¬ i + 1 = 0),
              if_neg (by omega : ¬ i + 1 ≤ qs.length + 1)]
          exact Or.inr (Or.inr ⟨rfl, hterm⟩)
        · rw [if_neg h0, if_neg (by omega : ¬ i ≤ qs.length + 1),
              if_neg (by omega : ¬ i + 1 = 0),
              if_neg (by omega : ¬ i + 1 ≤ qs.length + 1)]
          exact Or.inl rfl
  · intro htermi
    have hi2 : qs.length + 1 < i := by
      by_contra hcon
      rw [hstat i] at htermi
      by_cases h0 : i = 0
      · rw [if_pos h0] at htermi
        simp [isTerminal] at htermi
      · rw [if_neg h0, if_pos (by omega)] at htermi
        simp [isTerminal] at htermi
    unfold shapeAt
    rw [if_neg (show ¬ i = 0 by omega),
        if_neg (show ¬ i ≤ qs.length + 1 by omega),
        if_neg (show ¬ i' = 0 by omega),
        if_neg (show ¬ i' ≤ qs.length + 1 by omega)]

theorem ptm_shape_spec (t1 : ℚ) (ps : List PEvent)
    (hps : ∀ e ∈ ps, isPProgress e = true) (term : PEvent)
    (hterm : isTerminal
      (pstep (ps.foldl pstep (pstep initPtmJob (.start t1))) term).status = true)
    (i i' : Nat) (hii : i ≤ i') :
    statusRank (runPtmJob ((PEvent.start t1 :: ps ++ [term]).take i)).status
      ≤ statusRank (runPtmJob ((PEvent.start t1 :: ps ++ [term]).take i')).status ∧
    (i' = i + 1 →
      (runPtmJob ((PEvent.start t1 :: ps ++ [term]).take i')).status
        = (runPtmJob ((PEvent.start t1 :: ps ++ [term]).take i)).status ∨
      ((runPtmJob ((PEvent.start t1 :: ps ++ [term]).take i)).status = .pending ∧
        (runPtmJob ((PEvent.start t1 :: ps ++ [term]).take i')).status = .running) ∨
      ((runPtmJob ((PEvent.start t1 :: ps ++ [term]).take i)).status = .running ∧
        isTerminal
          (runPtmJob ((PEvent.start t1 :: ps ++ [term]).take i')).status = true)) ∧
    (isTerminal (runPtmJob ((PEvent.start t1 :: ps ++ [term]).take i)).status = true →
      runPtmJob ((PEvent.start t1 :: ps ++ [term]).take i')
        = runPtmJob ((PEvent.start t1 :: ps ++ [term]).take i)) := by
  have hstat := ptmStatus_take t1 ps hps term
  have hrank2 := rank_of_terminal _ hterm
  refine ⟨?_, ?_, ?_⟩
  · rw [hstat i, hstat i']
    by_cases h0 : i = 0
    · rw [if_pos h0]
      exact Nat.zero_le _
    · by_cases h1 : i ≤ ps.length + 1
      · rw [if_neg h0, if_pos h1, if_neg (by omega : ¬ i' = 0)]
        by_cases h1' : i' ≤ ps.length + 1
        · rw [if_pos h1']
        · rw [if_neg h1', hrank2]
          decide
      · rw [if_neg h0, if_neg h1, if_neg (by omega : ¬ i' = 0),
            if_neg (by omega : ¬ i' ≤ ps.length + 1)]
  · intro hip
    subst hip
    rw [hstat i, hstat (i + 1)]
    by_cases h0 : i = 0
    · rw [if_pos h0, if_neg (by omega : ¬ i + 1 = 0),
          if_pos (by omega : i + 1 ≤ ps.length + 1)]
      exact Or.inr (Or.inl ⟨rfl, rfl⟩)
    · by_cases h1 : i ≤ ps.length
      · rw [if_neg h0, if_pos (by omega : i ≤ ps.length + 1),
            if_neg (by omega : ¬ i + 1 = 0),
            if_pos (by omega : i + 1 ≤ ps.length + 1)]
        exact Or.inl rfl
      · by_cases h2 : i = ps.length + 1
        · rw [if_neg h0, if_pos (by omega : i ≤ ps.length + 1),
              if_neg (by omega : ¬ i + 1 = 0),
              if_neg (by omega : ¬ i + 1 ≤ ps.length + 1)]
          exact Or.inr (Or.inr ⟨rfl, hterm⟩)
        · rw [if_neg h0, if_neg (by omega : ¬ i ≤ ps.length + 1),
              if_neg (by omega : ¬ i + 1 = 0),
              if_neg (by omega : ¬ i + 1 ≤ ps.length + 1)]
          exact Or.inl rfl
  · intro hti
    have hi2 : ps.length + 1 < i := by
      by_contra hcon
      rw [hstat i] at hti
      by_cases h0 : i = 0
      · rw [if_pos h0] at hti
        simp [isTerminal] at hti
      · rw [if_neg h0, if_pos (by omega : i ≤ ps.length + 1)] at hti
        simp [isTerminal] at hti
    have hlen : (PEvent.start t1 :: ps ++ [term]).length ≤ i := by
      simp only [List.length_cons, List.length_append, List.length_nil]
      omega
    rw [List.take_of_length_le hlen, List.take_of_length_le (le_trans hlen hii)]

/-- Claim C2: for every batch job and every read point over any
interleaving of the worker, the predictor's progress callbacks, and
concurrent readers (each read observes the state after some prefix of the
worker's lock-protected mutations), `processed ≤ total` holds, `total` is
fixed at submission, the status rank is monotone, single mutations move
the status only along pending→running→{completed, failed}, and no field
mutates after a terminal state; the same status-machine and
terminal-freeze properties hold for the PTM pipeline jobs of
`ptm_job_manager.py`. -/
theorem C2_job_lifecycle (total : Nat) (tr : List BEvent) (h : WorkerRun total tr)
    (i i' : Nat) (hii : i ≤ i') :
    ((runJob total (tr.take i)).processed ≤ (runJob total (tr.take i)).totalSamples ∧
     (runJob total (tr.take i)).totalSamples = total ∧
     statusRank (runJob total (tr.take i)).status
       ≤ statusRank (runJob total (tr.take i')).status ∧
     (i' = i + 1 →
       (runJob total (tr.take i')).status = (runJob total (tr.take i)).status ∨
       ((runJob total (tr.take i)).status = .pending ∧
         (runJob total (tr.take i')).status = .running) ∨
       ((runJob total (tr.take i)).status = .running ∧
         isTerminal (runJob total (tr.take i')).status = true)) ∧
     (isTerminal (runJob total (tr.take i)).status = true →
       runJob total (tr.take i') = runJob total (tr.take i))) ∧
    (∀ ptr : List PEvent, PtmWorkerRun ptr →
      statusRank (runPtmJob (ptr.take i)).status
        ≤ statusRank (runPtmJob (ptr.take i')).status ∧
      (i' = i + 1 →
        (runPtmJob (ptr.take i')).status = (runPtmJob (ptr.take i)).status ∨
        ((runPtmJob (ptr.take i)).status = .pending ∧
          (runPtmJob (ptr.take i')).status = .running) ∨
        ((runPtmJob (ptr.take i)).status = .running ∧
          isTerminal (runPtmJob (ptr.take i')).status = true)) ∧
      (isTerminal (runPtmJob (ptr.take i)).status = true →
        runPtmJob (ptr.take i') = runPtmJob (ptr.take i))) := by
  constructor
  · cases h with
    | completes t1 t2 =>
      have hspec := shapeAt_spec total t1 (callbackVals total) (.complete t2)
        (callbackVals_le total) rfl rfl (le_refl total) i i' hii
      simpa only [runJob_take_eq] using hspec
    | fails t1 t2 e k =>
      have hspec := shapeAt_spec total t1 ((callbackVals total).take k) (.fail e t2)
        (fun p hp => callbackVals_le total p (List.take_subset _ _ hp)) rfl rfl
        (getLast?_getD_le _ _
          (fun p hp => callbackVals_le total p (List.take_subset _ _ hp)))
        i i' hii
      simpa only [runJob_take_eq] using hspec
  · intro ptr hptr
    cases hptr with
    | completes t1 t2 ps hps m files =>
      exact ptm_shape_spec t1 ps hps (.complete t2 m files) rfl i i' hii
    | fails t1 t2 ps hps e =>
      exact ptm_shape_spec t1 ps hps (.fail e t2) rfl i i' hii

/-- Witness for C2: the worker trace for a 2048-sample batch job, read
after the first progress callback — `processed = 1024 ≤ 2048 = total`. -/
theorem C2_job_lifecycle_witness :
    (runJob 2048 ((BEvent.start 0 :: ((callbackVals 2048).map .progress)
        ++ [BEvent.complete 5]).take 2)).processed
      ≤ (runJob 2048 ((BEvent.start 0 :: ((callbackVals 2048).map .progress)
        ++ [BEvent.complete 5]).take 2)).totalSamples := by
  exact (C2_job_lifecycle 2048 _ (WorkerRun.completes 0 5) 2 4 (by omega)).1.1

/-! ## ptm_pipeline.py — target/decoy generation (claim C9)

`_step01_generate_td_list` encodes each peptide with single-character
modification codes (1 = Phospho, 2 = Oxidation, 3 = Carbamidomethyl,
4 = N-terminal Acetyl), filters out the acetyl patterns
`4M2/4S/4T/4Y/4C`, keeps mono-phospho rows (exactly one `1`), keeps
sequences with more than one S/T/Y in the stripped sequence, and then
scans `key` (the peptide with its `1` removed), emitting one target
variant per S/T/Y site and, at the last index, sampled decoy variants.
The in-loop list mutations of `sequence` are balanced inside each branch,
so every variant is built from the immutable `key`; `y.remove` is
Python's remove-first-occurrence (`List.erase`), and the single unguarded
`y.remove(x)` in the S/T/Y branch is modelled with an explicit error.
`random.sample` is an oracle parameter. -/

def isSTY (c : Char) : Bool := c = 'S' || c = 'T' || c = 'Y'

def styCount (s : List Char) : Nat := (s.filter isSTY).length

/-- `Peptide.str.replace(r"[1234]", "", regex=True)`. -/
def stripSeq (p : List Char) : List Char :=
  p.filter (fun c => !(c = '1' || c = '2' || c = '3' || c = '4'))

/-- `Peptide.str.replace("1", "")` — the `key` column. -/
def keyOf (p : List Char) : List Char := p.filter (fun c => !(c = '1'))

/-- Python `pat in s` for a nonempty pattern. -/
def containsSeq (pat : List Char) : List Char → Bool
  | [] => pat.isEmpty
  | c :: rest => pat.isPrefixOf (c :: rest) || containsSeq pat rest

/-- The row filters of `_step01_generate_td_list` ahead of the generator
loop: no `4M2/4S/4T/4Y/4C` pattern, exactly one phospho mark, and more
than one S/T/Y site in the stripped sequence. -/
def keepPeptide (p : List Char) : Bool :=
  !(containsSeq ("4M2".toList) p) && !(containsSeq ("4S".toList) p) &&
  !(containsSeq ("4T".toList) p) && !(containsSeq ("4Y".toList) p) &&
  !(containsSeq ("4C".toList) p) &&
  (p.count '1' = 1) && (1 < styCount (stripSeq p))

/-- `sequence[c], sequence[sty] = sequence[sty], sequence[c]`. -/
def swapIdx (l : List Char) (a b : Nat) : List Char :=
  (l.set a (l.getD b ' ')).set b (l.getD a ' ')

/-- The decoy emission loop: for each sampled position `c`, stop if
`stynum` has exhausted `sty_list`, otherwise swap the phospho site into
`c` and emit the variant. -/
def decoyGo (key : List Char) (styList : List Nat) :
    List Nat → Nat → List (List Char)
  | [], _ => []
  | c :: bs, stynum =>
    if styList.length ≤ stynum then []
    else
      let sty := styList.getD stynum 0
      ((swapIdx key c sty).insertIdx (c + 1) '1') :: decoyGo key styList bs (stynum + 1)

/-- The decoy block run at the last loop index: sample
`min(len(sty_list), len(y))` positions from `y` (the `else y[:]` arm of
the source is dead code, as the count never exceeds `len(y)`). -/
def decoyBlock (key : List Char) (sample : List Nat → Nat → List Nat)
    (y styList : List Nat) : List (List Char) :=
  let sampleCount := min styList.length y.length
  if 0 < sampleCount then decoyGo key styList (sample y sampleCount) 0
  else []

/-- One branch dispatch of the generator loop at index `x` on character
`c`: the targets it appends, and the updated `y` and `sty_list`.  The
S/T/Y branch's `y.remove(x)` is unguarded in the source and raises when
`x ∉ y`; every other removal is guarded (`if .. in y`), which coincides
with `List.erase`, and Python's `x - 1` at `x = 0` is `-1`, never a
member, hence the `x = 0` guard. -/
def tdBranch (key : List Char) (c : Char) (x : Nat) (y styList : List Nat) :
    Except String (List (List Char) × List Nat × List Nat) :=
  if isSTY c then
    if x ∈ y then
      .ok ([key.insertIdx (x + 1) '1'], y.erase x, styList ++ [x])
    else .error "ValueError: list.remove(x): x not in list"
  else if c = '2' ∨ c = '3' then
    let y1 := y.erase x
    .ok ([], if x = 0 then y1 else y1.erase (x - 1), styList)
  else if c = '4' then
    .ok ([], (y.erase x).erase (x + 1), styList)
  else .ok ([], y, styList)

/-- The generator loop of `_step01_generate_td_list` over the suffix
`cs = key.drop x`: returns the target variants (emitted in scan order)
and the decoy variants (emitted at the last index); the source appends
them into a single `rows` list as `targets ++ decoys`. -/
def tdGo (key : List Char) (sample : List Nat → Nat → List Nat) :
    List Char → Nat → List Nat → List Nat →
    Except String (List (List Char) × List (List Char))
  | [], _, _, _ => .ok ([], [])
  | c :: cs, x, y, styList =>
    match tdBranch key c x y styList with
    | .error e => .error e
    | .ok (ts, y', styList') =>
      if cs = [] then .ok (ts, decoyBlock key sample y' styList')
      else
        match tdGo key sample cs (x + 1) y' styList' with
        | .error e => .error e
        | .ok (ts', ds) => .ok (ts ++ ts', ds)

/-- The target/decoy rows one peptide contributes to `step1_TD_list.csv`:
none when any upstream filter drops it, otherwise the generator loop's
output on its `key`. -/
def td_rows_for (p : List Char) (sample : List Nat → Nat → List Nat) :
    Except String (List (List Char) × List (List Char)) :=
  if keepPeptide p then
    tdGo (keyOf p) sample (keyOf p) 0 (List.range (keyOf p).length) []
  else .ok ([], [])

/-- No `4` immediately followed by an S/T/Y inside a key — guaranteed for
well-formed encodings by the upstream `4S/4T/4Y` pattern filter (a
phospho `1` can only follow an S/T/Y, never separate a `4` from the
residue it marks). -/
def noAcetylSTY (l : List Char) : Prop :=
  ∀ i, i + 1 < l.length → l.getD i ' ' = '4' → isSTY (l.getD (i + 1) ' ') = false

theorem tdBranch_spec (key : List Char) (c : Char) (x : Nat) (y styList : List Nat)
    (hadj : noAcetylSTY key) (hx_lt : x < key.length) (hgetx : key.getD x ' ' = c)
    (hinv : ∀ j, x ≤ j → j < key.length → isSTY (key.getD j ' ') = true → j ∈ y) :
    ∃ ts y' styList', tdBranch key c x y styList = .ok (ts, y', styList') ∧
      ts.length = (if isSTY c then 1 else 0) ∧
      (∀ j, x + 1 ≤ j → j < key.length → isSTY (key.getD j ' ') = true → j ∈ y') := by
  by_cases hSTY : isSTY c = true
  · have hxmem : x ∈ y := hinv x (le_refl x) hx_lt (by rw [hgetx]; exact hSTY)
    refine ⟨[key.insertIdx (x + 1) '1'], y.erase x, styList ++ [x],
      by simp [tdBranch, hSTY, hxmem], by simp [hSTY], ?_⟩
    intro j hj hjl hsty
    exact (List.mem_erase_of_ne (by omega : j ≠ x)).mpr (hinv j (by omega) hjl hsty)
  · by_cases h23 : c = '2' ∨ c = '3'
    · refine ⟨[], if x = 0 then y.erase x else (y.erase x).erase (x - 1), styList,
        by simp [tdBranch, hSTY, h23], by simp [hSTY], ?_⟩
      intro j hj hjl hsty
      have hjy := hinv j (by omega) hjl hsty
      by_cases h0 : x = 0
      · rw [if_pos h0]
        exact (List.mem_erase_of_ne (by omega : j ≠ x)).mpr hjy
      · rw [if_neg h0]
        exact (List.mem_erase_of_ne (by omega : j ≠ x - 1)).mpr
          ((List.mem_erase_of_ne (by omega : j ≠ x)).mpr hjy)
    · by_cases h4 : c = '4'
      · refine ⟨[], (y.erase x).erase (x + 1), styList,
          by simp [tdBranch, isSTY, hSTY, h23, h4], by simp [hSTY], ?_⟩
        intro j hj hjl hsty
        have hjy := hinv j (by omega) hjl hsty
        have hjne : j ≠ x + 1 := by
          intro hje
          subst hje
          have hfalse := hadj x hjl (hgetx.trans h4)
          rw [hfalse] at hsty
          exact Bool.false_ne_true hsty
        exact (List.mem_erase_of_ne hjne).mpr
          ((List.mem_erase_of_ne (by omega : j ≠ x)).mpr hjy)
      · refine ⟨[], y, styList, by simp [tdBranch, hSTY, h23, h4],
          by simp [hSTY], ?_⟩
        intro j hj hjl hsty
        exact hinv j (by omega) hjl hsty

theorem tdGo_spec (key : List Char) (sample : List Nat → Nat → List Nat)
    (hadj : noAcetylSTY key) :
    ∀ (cs : List Char) (x : Nat) (y styList : List Nat),
      cs = key.drop x →
      (∀ j, x ≤ j → j < key.length → isSTY (key.getD j ' ') = true → j ∈ y) →
      ∃ ts ds, tdGo key sample cs x y styList = .ok (ts, ds) ∧
        ts.length = (cs.filter isSTY).length := by
  intro cs
  induction cs with
  | nil =>
    intro x y styList hcs hinv
    exact ⟨[], [], rfl, rfl⟩
  | cons c cs' ih =>
    intro x y styList hcs hinv
    have hdropne : key.drop x ≠ [] := by rw [← hcs]; simp
    have hx_lt : x < key.length := by
      by_contra hcon
      exact hdropne (List.drop_eq_nil_of_le (by omega))
    have hgetx : key.getD x ' ' = c := by
      have h1 : (key.drop x).head? = some c := by rw [← hcs]; rfl
      rw [List.head?_drop] at h1
      rw [List.getD_eq_getElem?_getD, h1]
      rfl
    have hcs' : cs' = key.drop (x + 1) := by
      rw [← List.tail_drop, ← hcs]
      rfl
    rcases tdBranch_spec key c x y styList hadj hx_lt hgetx hinv with
      ⟨ts, y', styList', hbr, hts, hinv'⟩
    by_cases hnil : cs' = []
    · subst hnil
      refine ⟨ts, decoyBlock key sample y' styList', ?_, ?_⟩
      · simp [tdGo, hbr]
      · rw [hts]
        cases hc : isSTY c <;> simp [List.filter_cons, List.filter_nil, hc]
    · rcases ih (x + 1) y' styList' hcs' hinv' with ⟨ts', ds, hrun, hlen⟩
      refine ⟨ts ++ ts', ds, ?_, ?_⟩
      · simp [tdGo, hbr, hnil, hrun]
      · rw [List.length_append, hts, hlen, List.filter_cons]
        cases hc : isSTY c <;> simp [hc]
        omega

/-- Claim C9: a mono-phospho sequence whose stripped sequence has exactly
one S/T/Y site contributes no target and no decoy rows (the generator only
processes sequences with more than one candidate site); and every
processed sequence — one that passes the pattern, mono-phospho and
multi-site filters, with the well-formedness guarantee that no `4`
(N-terminal acetyl) sits directly before an S/T/Y in its key — emits
exactly one target row per candidate site, hence at least two target rows
when it has two candidate sites. -/
theorem C9_target_decoy (p : List Char) (sample : List Nat → Nat → List Nat) :
    (p.count '1' = 1 → styCount (stripSeq p) = 1 →
      td_rows_for p sample = .ok ([], [])) ∧
    (keepPeptide p = true → noAcetylSTY (keyOf p) →
      ∃ ts ds, td_rows_for p sample = .ok (ts, ds) ∧
        ts.length = styCount (stripSeq p) ∧
        (styCount (stripSeq p) = 2 → 2 ≤ ts.length)) := by
  have hpt : ∀ c, isSTY c = true →
      ((!(c = '1' : Bool)) = true ∧
        (!(c = '1' || c = '2' || c = '3' || c = '4')) = true) := by
    intro c h
    have hc : (c = 'S' ∨ c = 'T') ∨ c = 'Y' := by simpa [isSTY] using h
    rcases hc with (rfl | rfl) | rfl <;> exact ⟨rfl, rfl⟩
  have hcount : styCount (keyOf p) = styCount (stripSeq p) := by
    unfold styCount keyOf stripSeq
    rw [List.filter_filter, List.filter_filter]
    congr 1
    apply List.filter_congr
    intro c _
    cases hb : isSTY c
    · simp [hb]
    · rcases hpt c hb with ⟨h1, h2⟩
      simp [hb, h1, h2]
  constructor
  · intro h1 hsty
    have hkeep : keepPeptide p = false := by
      simp [keepPeptide, hsty]
    simp [td_rows_for, hkeep]
  · intro hkeep hadj
    rcases tdGo_spec (keyOf p) sample hadj (keyOf p) 0
      (List.range (keyOf p).length) [] (by simp)
      (fun j _ hj _ => List.mem_range.mpr hj) with ⟨ts, ds, hrun, hlen⟩
    refine ⟨ts, ds, ?_, ?_, ?_⟩
    · simp [td_rows_for, hkeep, hrun]
    · rw [hlen]
      exact hcount
    · intro h2
      rw [hlen]
      rw [show ((keyOf p).filter isSTY).length = styCount (keyOf p) from rfl,
        hcount, h2]

/-- Witness for C9: the mono-phospho peptide `AS1TK` (two candidate sites
S and T) passes the filters and produces exactly two target rows. -/
theorem C9_target_decoy_witness :
    (td_rows_for ("AS1TK".toList) (fun y k => y.take k)).toOption.map
      (fun pr => pr.1.length) = some 2 := by
  have hadj : noAcetylSTY (keyOf ("AS1TK".toList)) := by
    intro i hi hc
    have hlen : (keyOf ("AS1TK".toList)).length = 4 := by decide
    rw [hlen] at hi
    have hi2 : i ≤ 2 := by omega
    interval_cases i <;> exact absurd hc (by decide)
  rcases (C9_target_decoy ("AS1TK".toList) (fun y k => y.take k)).2
    (by decide) hadj with ⟨ts, ds, hrun, hlen2, _⟩
  rw [hrun]
  have hsty : styCount (stripSeq ("AS1TK".toList)) = 2 := by decide
  simp only [Except.toOption, Option.map_some']
  rw [hlen2, hsty]

end MS2Int
